import Mathlib

/-!
Verification of the fintech-app repository's natural-language specification.

Shallow embedding of the relevant source components:
  * the option-symbol parser (OCC and broker-proprietary "Merrill" formats),
    referenced by `tests/test_symbol_parser.py`;
  * indicator utilities from `src/fintech_app/utils.py` (`calculate_rsi`,
    `estimate_premium`, `filter_options_by_weeks`);
  * the configuration loader from `src/fintech_app/config.py`;
  * `Portfolio.add_position` from `src/fintech_app/portfolio.py`;
  * the JSON store id logic from `src/fintech_app/database.py`;
  * `generate_covered_call_recommendations` from
    `src/fintech_app/strategy_engine.py`.

Numbers are modelled as `ℚ` (Python floats treated as exact decimals) and
`ℤ`/`ℕ`; strings as `String`/`List Char`; fallible operations as `Option` /
`Except`.
-/

/-! ### Character helpers (ASCII classes used by the symbol parser) -/

/-- `c` is an ASCII uppercase letter `A`–`Z`. -/
def isUpperA (c : Char) : Bool := decide (65 ≤ c.toNat ∧ c.toNat ≤ 90)

/-- `c` is an ASCII digit `0`–`9`. -/
def isDigitA (c : Char) : Bool := decide (48 ≤ c.toNat ∧ c.toNat ≤ 57)

/-- Numeric value of an ASCII digit. -/
def digitVal (c : Char) : ℕ := c.toNat - 48

/-- Numeric value of a two-digit ASCII field. -/
def twoDigitVal (a b : Char) : ℕ := 10 * digitVal a + digitVal b

/-- Numeric value of a digit string (most significant first). -/
def digitsVal (cs : List Char) : ℕ := cs.foldl (fun acc c => 10 * acc + digitVal c) 0

/-- Model of Python's `str.upper()` on the ASCII inputs handled by the parser
(per-character `Char.toUpper`). -/
def upperString (s : String) : String := ⟨s.data.map Char.toUpper⟩

/-! ### Option-symbol parser

Modelled from the spec: the function `parse_symbol` itself lives in
`pages/managePortfolio.py`, which is not part of the sources provided under
`src/` (only its test suite `tests/test_symbol_parser.py` is).  The model
follows the spec sentences: input is uppercased (matching is
case-insensitive); shape (a) is OCC-style: root symbol + 6-digit YYMMDD date
+ type letter C/P + 8-digit strike scaled by 1000; shape (b) is the
broker-proprietary Merrill form: root symbol + `#` + year-letter code +
fixed-width digit field + type letter + strike digits, where the year letter
maps to an offset from the fixed base year 2026 (the repository's tests pin
`A` ↦ 2026 and `B` ↦ 2027).  In the digit field the first two digits are the
day of the month and the remaining two digits are a redundant two-digit
year; no month is encoded, and the expiration month is January for every
input accepted by the tests (`TSLA#A3026C475000` ↦ `2026-01-30`,
`TSLA#B3026C475000` ↦ `2027-01-30`).  Unrecognized input yields `none`. -/

/-- Structured result of the symbol parser.  The source returns a dict
`{root, expiration (ISO string), pos_type, strike, format}`; the ISO
expiration string `YYYY-MM-DD` is modelled by its three numeric fields. -/
structure ParsedSymbol where
  root : String
  expYear : ℕ
  expMonth : ℕ
  expDay : ℕ
  pos_type : String
  strike : ℚ
  format : String
deriving DecidableEq

/-- OCC branch, on the already-uppercased character list: a nonempty run of
letters, then exactly 15 more characters: 6 date digits, a `C`/`P` type
letter, and 8 strike digits (strike scaled by 1000). -/
def parseOccUpper (cs : List Char) : Option ParsedSymbol :=
  let root := cs.takeWhile isUpperA
  let rest := cs.dropWhile isUpperA
  if rest.length = 15 ∧ root ≠ [] ∧ (rest.take 6).all isDigitA = true ∧
      (rest.getD 6 ' ' = 'C' ∨ rest.getD 6 ' ' = 'P') ∧
      (rest.drop 7).all isDigitA = true then
    some { root := String.mk root
         , expYear := 2000 + twoDigitVal (rest.getD 0 ' ') (rest.getD 1 ' ')
         , expMonth := twoDigitVal (rest.getD 2 ' ') (rest.getD 3 ' ')
         , expDay := twoDigitVal (rest.getD 4 ' ') (rest.getD 5 ' ')
         , pos_type := if rest.getD 6 ' ' = 'C' then "call" else "put"
         , strike := (digitsVal (rest.drop 7) : ℚ) / 1000
         , format := "occ" }
  else none

/-- Merrill branch, on the already-uppercased character list: a nonempty run
of letters, `#`, a year letter (base year 2026 plus the letter's offset from
`A`), two day digits, two redundant year digits, a `C`/`P` type letter, and
a nonempty strike digit field (strike scaled by 1000).  The expiration month
is not encoded and is January. -/
def parseMerrillUpper (cs : List Char) : Option ParsedSymbol :=
  let root := cs.takeWhile isUpperA
  let rest := cs.dropWhile isUpperA
  if 8 ≤ rest.length ∧ root ≠ [] ∧ rest.getD 0 ' ' = '#' ∧
      isUpperA (rest.getD 1 ' ') = true ∧
      ((rest.drop 2).take 4).all isDigitA = true ∧
      (rest.getD 6 ' ' = 'C' ∨ rest.getD 6 ' ' = 'P') ∧
      (rest.drop 7).all isDigitA = true then
    some { root := String.mk root
         , expYear := 2026 + ((rest.getD 1 ' ').toNat - 65)
         , expMonth := 1
         , expDay := twoDigitVal (rest.getD 2 ' ') (rest.getD 3 ' ')
         , pos_type := if rest.getD 6 ' ' = 'C' then "call" else "put"
         , strike := (digitsVal (rest.drop 7) : ℚ) / 1000
         , format := "merrill" }
  else none

/-- Modelled from the spec: `parse_symbol` (missing source file
`pages/managePortfolio.py`).  Uppercases its input, then tries the OCC shape
and the Merrill shape; any input conforming to neither yields `none`. -/
def parse_symbol (s : String) : Option ParsedSymbol :=
  let cs := s.data.map Char.toUpper
  match parseOccUpper cs with
  | some r => some r
  | none => parseMerrillUpper cs

/-- The input, after case normalization, has the OCC shape: root symbol,
6-digit date, type letter `C`/`P`, 8-digit strike. -/
def IsOccCI (s : String) : Prop :=
  ∃ (root date : List Char) (cp : Char) (strike : List Char),
    s.data.map Char.toUpper = root ++ date ++ cp :: strike ∧
    root ≠ [] ∧ (∀ c ∈ root, isUpperA c = true) ∧
    date.length = 6 ∧ (∀ c ∈ date, isDigitA c = true) ∧
    (cp = 'C' ∨ cp = 'P') ∧
    strike.length = 8 ∧ (∀ c ∈ strike, isDigitA c = true)

/-- The input, after case normalization, has the Merrill shape: root symbol,
`#`, year letter, 4-digit field, type letter `C`/`P`, nonempty strike digit
field. -/
def IsMerrillCI (s : String) : Prop :=
  ∃ (root : List Char) (yl d1 d2 y1 y2 cp : Char) (strike : List Char),
    s.data.map Char.toUpper = root ++ '#' :: yl :: d1 :: d2 :: y1 :: y2 :: cp :: strike ∧
    root ≠ [] ∧ (∀ c ∈ root, isUpperA c = true) ∧
    isUpperA yl = true ∧
    isDigitA d1 = true ∧ isDigitA d2 = true ∧ isDigitA y1 = true ∧ isDigitA y2 = true ∧
    (cp = 'C' ∨ cp = 'P') ∧
    strike ≠ [] ∧ (∀ c ∈ strike, isDigitA c = true)

/-! ### `calculate_rsi` (`src/fintech_app/utils.py`)

`delta = data['Close'].diff()`; `gain = (delta.where(delta > 0, 0)).rolling(period).mean()`;
`loss = (-delta.where(delta < 0, 0)).rolling(period).mean()`; `rs = gain / loss`;
result `100 - (100 / (1 + rs))`.  The price series is a list of rationals;
`diff`'s leading NaN becomes 0 under `.where` (NaN > 0 and NaN < 0 are both
false), modelled by the leading `0 ::`; a rolling mean is defined (non-NaN)
exactly when its window is full, which the bounds theorem takes as
hypotheses on the index. -/

/-- Pairwise differences `p[i] - p[i-1]` of the Close series (`diff`). -/
def deltasQ (ps : List ℚ) : List ℚ := (ps.tail.zip ps).map (fun x => x.1 - x.2)

/-- `delta.where(delta > 0, 0)`: the gain at one step. -/
def gainPart (d : ℚ) : ℚ := if 0 < d then d else 0

/-- `-delta.where(delta < 0, 0)`: the (positive) loss at one step. -/
def lossPart (d : ℚ) : ℚ := if d < 0 then -d else 0

/-- The gain series: `diff`'s leading NaN is replaced by 0 by `.where`. -/
def gainSeries (ps : List ℚ) : List ℚ := 0 :: (deltasQ ps).map gainPart

/-- The loss series: `diff`'s leading NaN is replaced by 0 by `.where`. -/
def lossSeries (ps : List ℚ) : List ℚ := 0 :: (deltasQ ps).map lossPart

/-- `rolling(window=period).mean()` at index `i`: the mean of the `period`
entries ending at `i` (meaningful when the window is full, `period ≤ i+1`). -/
def rollingMeanAt (xs : List ℚ) (period i : ℕ) : ℚ :=
  ((xs.take (i + 1)).drop (i + 1 - period)).sum / (period : ℚ)

/-- `calculate_rsi` at index `i` of the price series: `100 - 100/(1 + rs)`
with `rs` the ratio of average gain to average loss over the window. -/
def calculate_rsi_at (ps : List ℚ) (period i : ℕ) : ℚ :=
  100 - 100 / (1 + rollingMeanAt (gainSeries ps) period i /
    rollingMeanAt (lossSeries ps) period i)

/-! ### `estimate_premium` (`src/fintech_app/utils.py`)

`df = option_data['calls'] if is_call else option_data['puts']`;
`closest = df.iloc[(df['strike'] - strike).abs().argsort()[:1]]`;
`return closest['lastPrice'].values[0] if not closest.empty else 0`.
An options table is a list of rows (strike, lastPrice); `argsort()[:1]`
selects an index minimizing the absolute strike difference, modelled by a
left fold keeping the earliest minimizer. -/

/-- One row of an options table. -/
structure OptionRow where
  strike : ℚ
  lastPrice : ℚ
deriving DecidableEq

/-- An option chain: the `calls` and `puts` tables for one expiration. -/
structure OptionChain where
  calls : List OptionRow
  puts : List OptionRow
deriving DecidableEq

/-- Fold step keeping the row whose strike is closest to `k`. -/
def closerRow (k : ℚ) (acc : Option OptionRow) (r : OptionRow) : Option OptionRow :=
  match acc with
  | none => some r
  | some b => if |r.strike - k| < |b.strike - k| then some r else some b

/-- Row of the table minimizing `|strike - k|` (`argsort()[:1]`), `none` on
an empty table. -/
def closestRow (rows : List OptionRow) (k : ℚ) : Option OptionRow :=
  rows.foldl (closerRow k) none

/-- `estimate_premium`: `lastPrice` of the closest-strike row of the calls
(resp. puts) table, 0 when that table is empty. -/
def estimate_premium (option_data : OptionChain) (strike : ℚ) (is_call : Bool) : ℚ :=
  let df := if is_call then option_data.calls else option_data.puts
  match closestRow df strike with
  | some r => r.lastPrice
  | none => 0

/-! ### `filter_options_by_weeks` (`src/fintech_app/utils.py`)

For each `(date_str, opts)` entry: parse `date_str` with
`datetime.strptime(date_str, '%Y-%m-%d').date()` (any failure skips the
entry), compute `weeks_to_exp = (exp_date - today).days / 7`, and keep the
entry when `min_w <= weeks_to_exp <= max_w`.  `today` (from
`datetime.now().date()`) is modelled as its proleptic-Gregorian ordinal
(Python's `date.toordinal`); date subtraction is ordinal subtraction. -/

/-- Gregorian leap-year rule. -/
def isLeapYear (y : ℕ) : Bool := decide ((y % 4 = 0 ∧ y % 100 ≠ 0) ∨ y % 400 = 0)

/-- Days in month `m` of year `y`. -/
def daysInMonth (y m : ℕ) : ℕ :=
  if m = 2 then (if isLeapYear y then 29 else 28)
  else if m = 4 ∨ m = 6 ∨ m = 9 ∨ m = 11 then 30 else 31

/-- Days in year `y` before the first day of month `m`. -/
def daysBeforeMonth (y m : ℕ) : ℕ :=
  ((List.range (m - 1)).map (fun j => daysInMonth y (j + 1))).sum

/-- Python `date(y, m, d).toordinal()`: day count with `0001-01-01` as 1. -/
def date_toordinal (y m d : ℕ) : ℤ :=
  365 * ((y : ℤ) - 1) + ((y : ℤ) - 1) / 4 - ((y : ℤ) - 1) / 100 + ((y : ℤ) - 1) / 400 +
    (daysBeforeMonth y m : ℤ) + (d : ℤ)

/-- The `%d` field of `strptime`, whose regex is
`3[0-1]|[1-2]\d|0[1-9]|[1-9]| [1-9]`: the whole dash-delimited token is
either one or two digits, or a space followed by a nonzero digit
(`int(' 5') = 5`).  Day values the regex cannot produce (0 and 32–99) are
equally rejected by the calendar check below, so they yield `none` either
way. -/
def parseDayField (ds : List Char) : Option ℕ :=
  match ds with
  | [' ', c] => if isDigitA c = true ∧ 1 ≤ digitVal c then some (digitVal c) else none
  | _ => if ds ≠ [] ∧ ds.length ≤ 2 ∧ ds.all isDigitA = true then some (digitsVal ds)
      else none

/-- Model of `datetime.strptime(date_str, '%Y-%m-%d').date()`, following the
fields' regexes (on the ASCII digits these date strings are made of): `%Y`
is exactly four digits (`\d\d\d\d`), `%m` is `1[0-2]|0[1-9]|[1-9]` —
a one- or two-digit month whose value is 1–12 — and `%d` is handled by
`parseDayField`; the resulting numbers must form a real calendar date
(`datetime`'s constructor: `MINYEAR = 1`, day within the month).  `none`
models the exception. -/
def parseDateStr (s : String) : Option (ℕ × ℕ × ℕ) :=
  match s.data.splitOn '-' with
  | [ys, ms, ds] =>
    if ys.length = 4 ∧ ys.all isDigitA = true ∧
        ms ≠ [] ∧ ms.length ≤ 2 ∧ ms.all isDigitA = true then
      match parseDayField ds with
      | some d =>
        if 1 ≤ digitsVal ys ∧ 1 ≤ digitsVal ms ∧ digitsVal ms ≤ 12 ∧ 1 ≤ d ∧
            d ≤ daysInMonth (digitsVal ys) (digitsVal ms) then
          some (digitsVal ys, digitsVal ms, d)
        else none
      | none => none
    else none
  | _ => none

/-- `(exp_date - today).days / 7` as an exact rational. -/
def weeksToExp (today : ℤ) (ymd : ℕ × ℕ × ℕ) : ℚ :=
  ((date_toordinal ymd.1 ymd.2.1 ymd.2.2 - today : ℤ) : ℚ) / 7

/-- `filter_options_by_weeks`: keep exactly the entries whose date parses
and whose weeks-to-expiration lies in `[min_w, max_w]`; parse failures are
skipped (`except: continue`); values pass through unmodified. -/
def filter_options_by_weeks {α : Type} (today : ℤ) (options : List (String × α))
    (min_w max_w : ℤ) : List (String × α) :=
  options.filter (fun kv =>
    match parseDateStr kv.1 with
    | some ymd => decide ((min_w : ℚ) ≤ weeksToExp today ymd ∧
        weeksToExp today ymd ≤ (max_w : ℚ))
    | none => false)

/-! ### `_load_config` (`src/fintech_app/config.py`)

Hardcoded defaults `_DEFAULT_CONFIG`; if the override file is missing,
unparsable, or not a JSON object, `dict(_DEFAULT_CONFIG)` is returned;
otherwise `merged = dict(_DEFAULT_CONFIG); merged.update(data)`, and then
the `EPS_PROJECTIONS` value, when it is a dict, has each key passed through
`int(key)` (keys that fail to parse stay as they are).  JSON values are
modelled by a small universe sufficient for the defaults and overrides
(atoms, lists of atoms, and one-level tables); dicts are association lists
observed through `lookupD`, with `dict.update` as per-key assignment. -/

/-- A key of the (normalized) `EPS_PROJECTIONS` table: a JSON string key or
an `int(key)`-converted integer key. -/
inductive CKey where
  | ks (s : String)
  | ki (n : ℤ)
deriving DecidableEq

/-- An atomic JSON value. -/
inductive Atom where
  | num (q : ℚ)
  | bool (b : Bool)
  | str (s : String)
  | null
deriving DecidableEq

/-- A configuration value: an atom, a list of atoms, or a one-level table. -/
inductive CVal where
  | atom (a : Atom)
  | list (xs : List Atom)
  | table (es : List (CKey × Atom))
deriving DecidableEq

/-- Lookup in a top-level JSON object (first binding wins, as in a dict). -/
def lookupD (d : List (String × CVal)) (k : String) : Option CVal :=
  (d.find? (fun kv => kv.1 = k)).map Prod.snd

/-- `d[k] = v`: replace the binding if the key exists, else append it. -/
def setKey (d : List (String × CVal)) (k : String) (v : CVal) :
    List (String × CVal) :=
  if d.any (fun kv => kv.1 = k) then
    d.map (fun kv => if kv.1 = k then (k, v) else kv)
  else d ++ [(k, v)]

/-- Python `base.update(data)`: assign each binding of `data` in order. -/
def dictUpdate (base data : List (String × CVal)) : List (String × CVal) :=
  data.foldl (fun acc kv => setKey acc kv.1 kv.2) base

/-- `_DEFAULT_CONFIG` from `config.py` (JSON dict keys are strings). -/
def DEFAULT_CONFIG : List (String × CVal) :=
  [ ("TSLA_SHARES", CVal.atom (Atom.num 525))
  , ("CASH_AVAILABLE", CVal.atom (Atom.num 0))
  , ("RISK_TOLERANCE", CVal.atom (Atom.num 0.05))
  , ("EPS_PROJECTIONS", CVal.table
      [ (CKey.ks "2025", Atom.num 1.64)
      , (CKey.ks "2026", Atom.num 2.17)
      , (CKey.ks "2030", Atom.num 11.24) ])
  , ("BULLISH_THRESHOLD", CVal.atom (Atom.num 50))
  , ("DIP_THRESHOLD", CVal.atom (Atom.num 30))
  , ("OPTIONS_MIN_WEEKS", CVal.atom (Atom.num 2))
  , ("OPTIONS_MAX_WEEKS", CVal.atom (Atom.num 4))
  , ("ENABLE_COVERED_CALLS", CVal.atom (Atom.bool true))
  , ("ENABLE_WHEEL_STRATEGY", CVal.atom (Atom.bool true))
  , ("WHEEL_PUT_OTM_PCT", CVal.list [Atom.num 0.05, Atom.num 0.075, Atom.num 0.10])
  , ("WHEEL_MIN_CASH_RATIO", CVal.atom (Atom.num 1.1)) ]

/-- Python `int(key)` on the plain string keys occurring here: optional
minus sign followed by digits. -/
def parseIntKey (s : String) : Option ℤ :=
  match s.data with
  | '-' :: ds => if ds ≠ [] ∧ ds.all isDigitA = true then
      some (-(digitsVal ds : ℤ)) else none
  | ds => if ds ≠ [] ∧ ds.all isDigitA = true then some (digitsVal ds) else none

/-- `normalized[int(key)] = value` with fallback `normalized[key] = value`
on `TypeError`/`ValueError`. -/
def normalizeKey (k : CKey) : CKey :=
  match k with
  | CKey.ks s => match parseIntKey s with
    | some n => CKey.ki n
    | none => CKey.ks s
  | CKey.ki n => CKey.ki n

/-- Key normalization of the `EPS_PROJECTIONS` table. -/
def normalizeEntries (es : List (CKey × Atom)) : List (CKey × Atom) :=
  es.map (fun kv => (normalizeKey kv.1, kv.2))

/-- `eps = merged.get("EPS_PROJECTIONS"); if isinstance(eps, dict): ...`. -/
def normalizeEps (merged : List (String × CVal)) : List (String × CVal) :=
  match lookupD merged "EPS_PROJECTIONS" with
  | some (CVal.table es) =>
      setKey merged "EPS_PROJECTIONS" (CVal.table (normalizeEntries es))
  | _ => merged

/-- The four ways the override file can present itself to `_load_config`. -/
inductive ConfigSource where
  | missing
  | unparsable
  | nonObject
  | parsed (data : List (String × CVal))

/-- `_load_config`: defaults when the file is missing, unparsable, or not a
JSON object; otherwise defaults updated by the override object, with the
`EPS_PROJECTIONS` keys normalized. -/
def _load_config : ConfigSource → List (String × CVal)
  | ConfigSource.missing => DEFAULT_CONFIG
  | ConfigSource.unparsable => DEFAULT_CONFIG
  | ConfigSource.nonObject => DEFAULT_CONFIG
  | ConfigSource.parsed data => normalizeEps (dictUpdate DEFAULT_CONFIG data)

/-! ### `Portfolio.add_position` (`src/fintech_app/portfolio.py`)

`cost = premium * qty * 100`; a `'buy'` whose cost exceeds the cash raises
`ValueError` (the check precedes every mutation, so the error carries the
untouched entry state); otherwise cash is decreased (`'buy'`) or increased
(any other action) by the cost and exactly one position dict is appended.
The database side effects (guarded by `save_to_db and self.db and
expiration`) touch only the JSON store, modelled separately. -/

/-- One options position dict `{'type', 'strike', 'premium', 'qty'}`. -/
structure PositionRec where
  pos_type : String
  strike : ℚ
  premium : ℚ
  qty : ℤ
deriving DecidableEq

/-- The in-memory `Portfolio` state touched by `add_position`. -/
structure Portfolio where
  shares : ℤ
  cash : ℚ
  positions : List PositionRec
deriving DecidableEq

/-- `Portfolio.add_position`: the `ValueError` branch carries the state at
raise time (no field has been mutated yet). -/
def add_position (p : Portfolio) (pos_type : String) (strike premium : ℚ) (qty : ℤ)
    (action : String) : Except (String × Portfolio) Portfolio :=
  let cost := premium * (qty : ℚ) * 100
  if action = "buy" ∧ cost > p.cash then
    Except.error ("Insufficient cash for position", p)
  else
    Except.ok
      { shares := p.shares
      , cash := if action = "buy" then p.cash - cost else p.cash + cost
      , positions := p.positions ++ [⟨pos_type, strike, premium, qty⟩] }

/-! ### `PortfolioDB` id assignment (`src/fintech_app/database.py`)

`_next_id(records) = max((r.get("id", 0) for r in records), default=0) + 1`.
Each table is modelled by the ids of its records (every record created by
these operations carries an id); `update_stock_position` appends a fresh
record only when the symbol is not yet present, and otherwise updates in
place without touching ids. -/

/-- `PortfolioDB._next_id` over the ids of a table. -/
def next_id (ids : List ℤ) : ℤ :=
  match ids with
  | [] => 1
  | x :: xs => xs.foldl max x + 1

/-- The JSON store: each table reduced to the data relevant to id
assignment (ids; for stock positions, symbol and id). -/
structure Store where
  portfolio_snapshots : List ℤ
  transactions : List ℤ
  options_positions : List ℤ
  stock_positions : List (String × ℤ)
deriving DecidableEq

/-- The store `_init_store` creates. -/
def emptyStore : Store := ⟨[], [], [], []⟩

/-- `save_portfolio_snapshot`: appends a snapshot with a fresh id. -/
def save_portfolio_snapshot (s : Store) : Store :=
  { s with portfolio_snapshots := s.portfolio_snapshots ++ [next_id s.portfolio_snapshots] }

/-- `add_transaction`: appends a transaction with a fresh id. -/
def add_transaction (s : Store) : Store :=
  { s with transactions := s.transactions ++ [next_id s.transactions] }

/-- `add_options_position`: appends a position with a fresh id. -/
def add_options_position (s : Store) : Store :=
  { s with options_positions := s.options_positions ++ [next_id s.options_positions] }

/-- `update_stock_position`: in-place update when the symbol exists,
otherwise a new record with a fresh id. -/
def update_stock_position (s : Store) (symbol : String) : Store :=
  if s.stock_positions.any (fun p => p.1 = symbol) then s
  else { s with stock_positions :=
    s.stock_positions ++ [(symbol, next_id (s.stock_positions.map Prod.snd))] }

/-- One record-creating call on the store. -/
inductive DBOp where
  | snapshot
  | transaction
  | optionsPosition
  | stockPosition (symbol : String)

/-- Apply one operation. -/
def applyOp (s : Store) : DBOp → Store
  | DBOp.snapshot => save_portfolio_snapshot s
  | DBOp.transaction => add_transaction s
  | DBOp.optionsPosition => add_options_position s
  | DBOp.stockPosition symbol => update_stock_position s symbol

/-- Run a sequence of operations from the empty store. -/
def runOps (ops : List DBOp) : Store := ops.foldl applyOp emptyStore

/-! ### `generate_covered_call_recommendations` (`src/fintech_app/strategy_engine.py`)

With `current_price = current_info['regularMarketPrice']`: if
`portfolio.shares >= 100`, then for every expiration's chain and every
`otm_pct in [0.05, 0.075, 0.10]`: `strike = round(current_price * (1 +
otm_pct))`, `premium = estimate_premium(opts, strike, is_call=True)`, and
when `premium > 0` a record is appended with `qty = min(shares // 100, 10)`,
`premium` and `total_premium = qty * 100 * premium` rounded to 2 decimal
places.  Python `round` is round-half-to-even (modelled on exact rationals);
`//` is floor division (`Int.fdiv`).  The display-only fields
`annualized_yield_pct` (from `_calculate_annualized_yield`) and `rationale`
(an f-string quoting the RSI) are not modelled; no claim concerns them. -/

/-- Python `round(q)`: nearest integer, ties to even. -/
def pyRound (q : ℚ) : ℤ :=
  if q - ⌊q⌋ < 1 / 2 then ⌊q⌋
  else if 1 / 2 < q - ⌊q⌋ then ⌊q⌋ + 1
  else if ⌊q⌋ % 2 = 0 then ⌊q⌋ else ⌊q⌋ + 1

/-- Python `round(q, 2)`: round to 2 decimal places, ties to even. -/
def round2 (q : ℚ) : ℚ := (pyRound (q * 100) : ℚ) / 100

/-- One covered-call recommendation record (the fields backing the claims). -/
structure Recommendation where
  strategy : String
  action : String
  expiration : String
  strike : ℤ
  premium : ℚ
  qty : ℤ
  total_premium : ℚ
deriving DecidableEq

/-- `generate_covered_call_recommendations` over the options mapping, the
portfolio's share count, and the current price. -/
def generate_covered_call_recommendations (options_data : List (String × OptionChain))
    (shares : ℤ) (current_price : ℚ) : List Recommendation :=
  if 100 ≤ shares then
    options_data.flatMap (fun dateOpts =>
      ([0.05, 0.075, 0.10] : List ℚ).filterMap (fun otm_pct =>
        if 0 < estimate_premium dateOpts.2 ((pyRound (current_price * (1 + otm_pct)) : ℤ) : ℚ) true then
          some { strategy := "Covered Calls"
               , action := "Sell Covered Call"
               , expiration := dateOpts.1
               , strike := pyRound (current_price * (1 + otm_pct))
               , premium := round2 (estimate_premium dateOpts.2
                   ((pyRound (current_price * (1 + otm_pct)) : ℤ) : ℚ) true)
               , qty := min (shares.fdiv 100) 10
               , total_premium := round2 ((min (shares.fdiv 100) 10 : ℤ) * 100 *
                   estimate_premium dateOpts.2
                     ((pyRound (current_price * (1 + otm_pct)) : ℤ) : ℚ) true) }
        else none))
  else []

/-! ## Theorems

Helper lemmas first (characters and list scanning, then per-component
lemmas), followed by the per-claim theorems with their witnesses and
counterexamples. -/

/-! ### Helper lemmas: characters and list scanning -/

theorem isUpperA_iff (c : Char) : isUpperA c = true ↔ 65 ≤ c.toNat ∧ c.toNat ≤ 90 := by
  simp [isUpperA]

theorem isDigitA_iff (c : Char) : isDigitA c = true ↔ 48 ≤ c.toNat ∧ c.toNat ≤ 57 := by
  simp [isDigitA]

theorem isUpperA_eq_false_of_isDigitA {c : Char} (h : isDigitA c = true) :
    isUpperA c = false := by
  rw [isDigitA_iff] at h
  simp [isUpperA_iff, isUpperA]
  omega

theorem toNat_ofNat_valid {n : ℕ} (h : n.isValidChar) : (Char.ofNat n).toNat = n := by
  simp [Char.ofNat, dif_pos h, Char.ofNatAux, Char.toNat, UInt32.toNat, BitVec.toNat_ofNatLt]

theorem toUpper_of_not_lower {c : Char} (h : ¬(97 ≤ c.toNat ∧ c.toNat ≤ 122)) :
    Char.toUpper c = c := by
  simp only [Char.toUpper, ge_iff_le]
  exact if_neg h

theorem toUpper_toNat_lower {c : Char} (h : 97 ≤ c.toNat ∧ c.toNat ≤ 122) :
    (Char.toUpper c).toNat = c.toNat - 32 := by
  have hv : (c.toNat - 32).isValidChar := Or.inl (by omega)
  simp only [Char.toUpper, ge_iff_le]
  rw [if_pos h]
  exact toNat_ofNat_valid hv

theorem toUpper_idem (c : Char) : Char.toUpper (Char.toUpper c) = Char.toUpper c := by
  by_cases h : 97 ≤ c.toNat ∧ c.toNat ≤ 122
  · have h1 : (Char.toUpper c).toNat = c.toNat - 32 := toUpper_toNat_lower h
    apply toUpper_of_not_lower
    rw [h1]
    omega
  · rw [toUpper_of_not_lower h]
    exact toUpper_of_not_lower h

theorem takeWhile_middle (p : Char → Bool) (l1 : List Char) (a : Char) (l2 : List Char)
    (h1 : ∀ x ∈ l1, p x = true) (h2 : p a = false) :
    (l1 ++ a :: l2).takeWhile p = l1 := by
  induction l1 with
  | nil => simp [List.takeWhile_cons, h2]
  | cons b bs ih =>
    have hb : p b = true := h1 b (by simp)
    simp [List.takeWhile_cons, hb, ih (fun x hx => h1 x (by simp [hx]))]

theorem dropWhile_middle (p : Char → Bool) (l1 : List Char) (a : Char) (l2 : List Char)
    (h1 : ∀ x ∈ l1, p x = true) (h2 : p a = false) :
    (l1 ++ a :: l2).dropWhile p = a :: l2 := by
  induction l1 with
  | nil => simp [List.dropWhile_cons, h2]
  | cons b bs ih =>
    have hb : p b = true := h1 b (by simp)
    simp [List.dropWhile_cons, hb, ih (fun x hx => h1 x (by simp [hx]))]

/-! ### Parser branch lemmas -/

theorem parseOccUpper_complete (root : List Char) (y1 y2 m1 m2 d1 d2 cp : Char)
    (strike : List Char)
    (hroot : root ≠ []) (hrootU : ∀ c ∈ root, isUpperA c = true)
    (hdig : ∀ c ∈ [y1, y2, m1, m2, d1, d2], isDigitA c = true)
    (hcp : cp = 'C' ∨ cp = 'P')
    (hslen : strike.length = 8) (hsd : ∀ c ∈ strike, isDigitA c = true) :
    parseOccUpper (root ++ [y1, y2, m1, m2, d1, d2] ++ cp :: strike) =
      some { root := String.mk root
           , expYear := 2000 + twoDigitVal y1 y2
           , expMonth := twoDigitVal m1 m2
           , expDay := twoDigitVal d1 d2
           , pos_type := if cp = 'C' then "call" else "put"
           , strike := (digitsVal strike : ℚ) / 1000
           , format := "occ" } := by
  have hy1 : isUpperA y1 = false := isUpperA_eq_false_of_isDigitA (hdig y1 (by simp))
  have harr : root ++ [y1, y2, m1, m2, d1, d2] ++ cp :: strike =
      root ++ y1 :: (y2 :: m1 :: m2 :: d1 :: d2 :: cp :: strike) := by simp
  have htk := takeWhile_middle isUpperA root y1 (y2 :: m1 :: m2 :: d1 :: d2 :: cp :: strike)
    hrootU hy1
  have hdr := dropWhile_middle isUpperA root y1 (y2 :: m1 :: m2 :: d1 :: d2 :: cp :: strike)
    hrootU hy1
  rw [harr]
  simp only [parseOccUpper, htk, hdr]
  rw [if_pos]
  · simp [twoDigitVal, List.getD]
  · refine ⟨by simp [hslen], hroot, ?_, by simpa [List.getD] using hcp, ?_⟩
    · simp only [List.take, List.all_cons, List.all_nil]
      simp [hdig y1 (by simp), hdig y2 (by simp), hdig m1 (by simp), hdig m2 (by simp),
        hdig d1 (by simp), hdig d2 (by simp)]
    · simp only [List.drop]
      rw [List.all_eq_true]
      exact hsd

theorem parseMerrillUpper_complete (root : List Char) (yl d1 d2 y1 y2 cp : Char)
    (strike : List Char)
    (hroot : root ≠ []) (hrootU : ∀ c ∈ root, isUpperA c = true)
    (hyl : isUpperA yl = true)
    (hd1 : isDigitA d1 = true) (hd2 : isDigitA d2 = true)
    (hy1 : isDigitA y1 = true) (hy2 : isDigitA y2 = true)
    (hcp : cp = 'C' ∨ cp = 'P')
    (hs : strike ≠ []) (hsd : ∀ c ∈ strike, isDigitA c = true) :
    parseMerrillUpper (root ++ '#' :: yl :: d1 :: d2 :: y1 :: y2 :: cp :: strike) =
      some { root := String.mk root
           , expYear := 2026 + (yl.toNat - 65)
           , expMonth := 1
           , expDay := twoDigitVal d1 d2
           , pos_type := if cp = 'C' then "call" else "put"
           , strike := (digitsVal strike : ℚ) / 1000
           , format := "merrill" } := by
  have hh : isUpperA '#' = false := by decide
  have htk := takeWhile_middle isUpperA root '#' (yl :: d1 :: d2 :: y1 :: y2 :: cp :: strike)
    hrootU hh
  have hdr := dropWhile_middle isUpperA root '#' (yl :: d1 :: d2 :: y1 :: y2 :: cp :: strike)
    hrootU hh
  simp only [parseMerrillUpper, htk, hdr]
  rw [if_pos]
  · simp [List.getD]
  · have hlen : strike.length ≥ 1 := by
      cases strike with
      | nil => exact absurd rfl hs
      | cons a l => simp
    refine ⟨by simp; omega, hroot, by simp [List.getD], by simp [List.getD, hyl], ?_,
      by simpa [List.getD] using hcp, ?_⟩
    · simp only [List.drop, List.take, List.all_cons, List.all_nil]
      simp [hd1, hd2, hy1, hy2]
    · simp only [List.drop]
      rw [List.all_eq_true]
      exact hsd

theorem parseOccUpper_none_of_hash (root : List Char) (rest : List Char)
    (hrootU : ∀ c ∈ root, isUpperA c = true) :
    parseOccUpper (root ++ '#' :: rest) = none := by
  have hh : isUpperA '#' = false := by decide
  have htk := takeWhile_middle isUpperA root '#' rest hrootU hh
  have hdr := dropWhile_middle isUpperA root '#' rest hrootU hh
  simp only [parseOccUpper, htk, hdr]
  rw [if_neg]
  rintro ⟨-, -, hall, -, -⟩
  simp only [List.take, List.all_cons] at hall
  have : isDigitA '#' = true := by
    cases h : isDigitA '#'
    · rw [h] at hall
      simp at hall
    · rfl
  exact absurd this (by decide)

theorem parseOccUpper_sound (cs : List Char) (r : ParsedSymbol)
    (h : parseOccUpper cs = some r) :
    ∃ (root date : List Char) (cp : Char) (strike : List Char),
      cs = root ++ date ++ cp :: strike ∧
      root ≠ [] ∧ (∀ c ∈ root, isUpperA c = true) ∧
      date.length = 6 ∧ (∀ c ∈ date, isDigitA c = true) ∧
      (cp = 'C' ∨ cp = 'P') ∧
      strike.length = 8 ∧ (∀ c ∈ strike, isDigitA c = true) := by
  rw [parseOccUpper] at h
  split at h
  case isFalse => simp at h
  case isTrue hg =>
    obtain ⟨hlen, hroot, hdate, hcp, hstrike⟩ := hg
    set rest := cs.dropWhile isUpperA with hrest
    have h6 : 6 < rest.length := by omega
    refine ⟨cs.takeWhile isUpperA, rest.take 6, rest.getD 6 ' ', rest.drop 7, ?_, hroot, ?_,
      ?_, ?_, hcp, ?_, ?_⟩
    · have hsplit : rest.take 6 ++ rest.drop 6 = rest := List.take_append_drop 6 rest
      have hdrop : rest.drop 6 = rest[6] :: rest.drop 7 := List.drop_eq_getElem_cons h6
      have hgd : rest.getD 6 ' ' = rest[6] := by
        simp [List.getD_eq_getElem?_getD, List.getElem?_eq_getElem h6]
      rw [hgd, ← hdrop, List.append_assoc, hsplit]
      exact (List.takeWhile_append_dropWhile isUpperA cs).symm
    · intro c hc
      exact List.mem_takeWhile_imp hc
    · simp [hlen]
    · intro c hc
      exact (List.all_eq_true.mp hdate) c hc
    · simp [hlen]
    · intro c hc
      exact (List.all_eq_true.mp hstrike) c hc

theorem parseMerrillUpper_sound (cs : List Char) (r : ParsedSymbol)
    (h : parseMerrillUpper cs = some r) :
    ∃ (root : List Char) (yl d1 d2 y1 y2 cp : Char) (strike : List Char),
      cs = root ++ '#' :: yl :: d1 :: d2 :: y1 :: y2 :: cp :: strike ∧
      root ≠ [] ∧ (∀ c ∈ root, isUpperA c = true) ∧
      isUpperA yl = true ∧
      isDigitA d1 = true ∧ isDigitA d2 = true ∧ isDigitA y1 = true ∧ isDigitA y2 = true ∧
      (cp = 'C' ∨ cp = 'P') ∧
      strike ≠ [] ∧ (∀ c ∈ strike, isDigitA c = true) := by
  rw [parseMerrillUpper] at h
  split at h
  case isFalse => simp at h
  case isTrue hg =>
    obtain ⟨hlen, hroot, hh, hyl, hd4, hcp, hstrike⟩ := hg
    set rest := cs.dropWhile isUpperA with hrest
    have h0 : 0 < rest.length := by omega
    have h1 : 1 < rest.length := by omega
    have h2 : 2 < rest.length := by omega
    have h3 : 3 < rest.length := by omega
    have h4 : 4 < rest.length := by omega
    have h5 : 5 < rest.length := by omega
    have h6 : 6 < rest.length := by omega
    have gd : ∀ (i : ℕ) (hi : i < rest.length), rest.getD i ' ' = rest[i] := by
      intro i hi
      simp [List.getD_eq_getElem?_getD, List.getElem?_eq_getElem hi]
    have hdecomp : rest = rest[0] :: rest[1] :: rest[2] :: rest[3] :: rest[4] :: rest[5] ::
        rest[6] :: rest.drop 7 := by
      rw [← List.drop_eq_getElem_cons h6, ← List.drop_eq_getElem_cons h5,
        ← List.drop_eq_getElem_cons h4, ← List.drop_eq_getElem_cons h3,
        ← List.drop_eq_getElem_cons h2, ← List.drop_eq_getElem_cons h1,
        ← List.drop_eq_getElem_cons h0, List.drop_zero]
    have hd4' : (rest.drop 2).take 4 = rest[2] :: rest[3] :: rest[4] :: rest[5] :: [] := by
      have : rest.drop 2 = rest[2] :: rest[3] :: rest[4] :: rest[5] :: rest.drop 6 := by
        rw [← List.drop_eq_getElem_cons h5, ← List.drop_eq_getElem_cons h4,
          ← List.drop_eq_getElem_cons h3, ← List.drop_eq_getElem_cons h2]
      rw [this]
      rfl
    refine ⟨cs.takeWhile isUpperA, rest[1], rest[2], rest[3], rest[4], rest[5], rest[6],
      rest.drop 7, ?_, hroot, ?_, ?_, ?_, ?_, ?_, ?_, ?_, ?_, ?_⟩
    · conv_lhs => rw [← List.takeWhile_append_dropWhile (p := isUpperA) (l := cs)]
      rw [← hrest]
      congr 1
      rw [← gd 0 h0] at hdecomp
      rw [hh] at hdecomp
      exact hdecomp
    · intro c hc
      exact List.mem_takeWhile_imp hc
    · rw [← gd 1 h1]
      exact hyl
    · have := List.all_eq_true.mp hd4
      exact this rest[2] (by rw [hd4']; simp)
    · have := List.all_eq_true.mp hd4
      exact this rest[3] (by rw [hd4']; simp)
    · have := List.all_eq_true.mp hd4
      exact this rest[4] (by rw [hd4']; simp)
    · have := List.all_eq_true.mp hd4
      exact this rest[5] (by rw [hd4']; simp)
    · rw [← gd 6 h6]
      exact hcp
    · have : (rest.drop 7).length = rest.length - 7 := List.length_drop 7 rest
      intro hnil
      rw [hnil] at this
      simp at this
      omega
    · intro c hc
      exact (List.all_eq_true.mp hstrike) c hc

/-- C1: for every input string of the OCC shape (root symbol, 6-digit YYMMDD
date, type letter `C`/`P`, 8 strike digits), `parse_symbol` returns a record
whose root is the root symbol, whose expiration is `20YY-MM-DD`, whose
option type is call for `C` and put for `P`, whose strike is the strike
digits divided by 1000, and whose format tag is `occ`; every input
conforming to neither recognized shape yields `none`. -/
theorem parse_symbol_occ_spec (s : String) :
    (∀ (root : List Char) (y1 y2 m1 m2 d1 d2 cp : Char) (strike : List Char),
        s.data.map Char.toUpper = root ++ [y1, y2, m1, m2, d1, d2] ++ cp :: strike →
        root ≠ [] → (∀ c ∈ root, isUpperA c = true) →
        (∀ c ∈ [y1, y2, m1, m2, d1, d2], isDigitA c = true) →
        (cp = 'C' ∨ cp = 'P') →
        strike.length = 8 → (∀ c ∈ strike, isDigitA c = true) →
        parse_symbol s = some
          { root := String.mk root
          , expYear := 2000 + twoDigitVal y1 y2
          , expMonth := twoDigitVal m1 m2
          , expDay := twoDigitVal d1 d2
          , pos_type := if cp = 'C' then "call" else "put"
          , strike := (digitsVal strike : ℚ) / 1000
          , format := "occ" }) ∧
    (¬ IsOccCI s → ¬ IsMerrillCI s → parse_symbol s = none) := by
  constructor
  · intro root y1 y2 m1 m2 d1 d2 cp strike hdec hroot hrootU hdig hcp hslen hsd
    have hc := parseOccUpper_complete root y1 y2 m1 m2 d1 d2 cp strike
      hroot hrootU hdig hcp hslen hsd
    simp only [parse_symbol, hdec, hc]
  · intro hO hM
    simp only [parse_symbol]
    cases hp : parseOccUpper (s.data.map Char.toUpper) with
    | some r =>
      obtain ⟨root, date, cp, strike, hdec, h2, h3, h4, h5, h6, h7, h8⟩ :=
        parseOccUpper_sound _ r hp
      exact absurd ⟨root, date, cp, strike, hdec, h2, h3, h4, h5, h6, h7, h8⟩ hO
    | none =>
      cases hq : parseMerrillUpper (s.data.map Char.toUpper) with
      | some r =>
        obtain ⟨root, yl, d1, d2, y1, y2, cp, strike, hdec, hs⟩ :=
          parseMerrillUpper_sound _ r hq
        exact absurd ⟨root, yl, d1, d2, y1, y2, cp, strike, hdec, hs⟩ hM
      | none => rfl

theorem parse_symbol_occ_spec_witness :
    parse_symbol "TSLA260227C00455000" =
      some ⟨"TSLA", 2026, 2, 27, "call", 455, "occ"⟩ := by
  have h := (parse_symbol_occ_spec "TSLA260227C00455000").1
    ['T', 'S', 'L', 'A'] '2' '6' '0' '2' '2' '7' 'C'
    ['0', '0', '4', '5', '5', '0', '0', '0']
    (by decide) (by decide) (by decide) (by decide) (by decide) (by decide) (by decide)
  rw [h]
  simp [twoDigitVal, digitVal, digitsVal, ParsedSymbol.mk.injEq]
  norm_num

/-- C2: `parse_symbol` is total (modelled as an `Option`-returning function:
every input, including the empty string and malformed input, yields a record
or `none`), and matching is case-insensitive: an input and its upper-cased
form parse to equal results. -/
theorem parse_symbol_total_case_insensitive :
    (∀ s : String, parse_symbol (upperString s) = parse_symbol s) ∧
    parse_symbol "" = none ∧ parse_symbol "INVALID_FORMAT" = none := by
  refine ⟨?_, ?_, ?_⟩
  · intro s
    have hdata : (upperString s).data = s.data.map Char.toUpper := rfl
    have hmap : (s.data.map Char.toUpper).map Char.toUpper = s.data.map Char.toUpper := by
      rw [List.map_map]
      exact List.map_congr_left (fun c _ => toUpper_idem c)
    simp only [parse_symbol, hdata, hmap]
  · simp [parse_symbol, parseOccUpper, parseMerrillUpper]
  · simp [parse_symbol, parseOccUpper, parseMerrillUpper, isUpperA, isDigitA]

/-- C3 (amended): in the Merrill form — root symbol, delimiter `#`, year
letter, fixed-width digit field, type letter, strike digits — the year
letter selects the expiration year as the fixed base year 2026 plus the
letter's alphabetical offset (`A` ↦ 2026, `B` ↦ 2027); the day of the
expiration comes from the first two digits of the digit field, while the
month is not encoded and is always January (the remaining two digits are a
redundant two-digit year); two inputs differing only in the year letter
(`A` versus `B`) parse to records identical except that the expiration year
differs by one. -/
theorem parse_symbol_merrill_spec :
    (∀ (s : String) (root : List Char) (yl d1 d2 y1 y2 cp : Char) (strike : List Char),
        s.data.map Char.toUpper = root ++ '#' :: yl :: d1 :: d2 :: y1 :: y2 :: cp :: strike →
        root ≠ [] → (∀ c ∈ root, isUpperA c = true) →
        isUpperA yl = true →
        isDigitA d1 = true → isDigitA d2 = true → isDigitA y1 = true → isDigitA y2 = true →
        (cp = 'C' ∨ cp = 'P') →
        strike ≠ [] → (∀ c ∈ strike, isDigitA c = true) →
        parse_symbol s = some
          { root := String.mk root
          , expYear := 2026 + (yl.toNat - 65)
          , expMonth := 1
          , expDay := twoDigitVal d1 d2
          , pos_type := if cp = 'C' then "call" else "put"
          , strike := (digitsVal strike : ℚ) / 1000
          , format := "merrill" }) ∧
    (∀ (s1 s2 : String) (root : List Char) (d1 d2 y1 y2 cp : Char) (strike : List Char),
        s1.data.map Char.toUpper = root ++ '#' :: 'A' :: d1 :: d2 :: y1 :: y2 :: cp :: strike →
        s2.data.map Char.toUpper = root ++ '#' :: 'B' :: d1 :: d2 :: y1 :: y2 :: cp :: strike →
        root ≠ [] → (∀ c ∈ root, isUpperA c = true) →
        isDigitA d1 = true → isDigitA d2 = true → isDigitA y1 = true → isDigitA y2 = true →
        (cp = 'C' ∨ cp = 'P') →
        strike ≠ [] → (∀ c ∈ strike, isDigitA c = true) →
        ∃ r1 r2 : ParsedSymbol, parse_symbol s1 = some r1 ∧ parse_symbol s2 = some r2 ∧
          r2 = { r1 with expYear := r1.expYear + 1 }) := by
  have main : ∀ (s : String) (root : List Char) (yl d1 d2 y1 y2 cp : Char) (strike : List Char),
      s.data.map Char.toUpper = root ++ '#' :: yl :: d1 :: d2 :: y1 :: y2 :: cp :: strike →
      root ≠ [] → (∀ c ∈ root, isUpperA c = true) →
      isUpperA yl = true →
      isDigitA d1 = true → isDigitA d2 = true → isDigitA y1 = true → isDigitA y2 = true →
      (cp = 'C' ∨ cp = 'P') →
      strike ≠ [] → (∀ c ∈ strike, isDigitA c = true) →
      parse_symbol s = some
        { root := String.mk root
        , expYear := 2026 + (yl.toNat - 65)
        , expMonth := 1
        , expDay := twoDigitVal d1 d2
        , pos_type := if cp = 'C' then "call" else "put"
        , strike := (digitsVal strike : ℚ) / 1000
        , format := "merrill" } := by
    intro s root yl d1 d2 y1 y2 cp strike hdec hroot hrootU hyl hd1 hd2 hy1 hy2 hcp hs hsd
    have hocc := parseOccUpper_none_of_hash root
      (yl :: d1 :: d2 :: y1 :: y2 :: cp :: strike) hrootU
    have hmer := parseMerrillUpper_complete root yl d1 d2 y1 y2 cp strike
      hroot hrootU hyl hd1 hd2 hy1 hy2 hcp hs hsd
    simp only [parse_symbol, hdec, hocc, hmer]
  refine ⟨main, ?_⟩
  intro s1 s2 root d1 d2 y1 y2 cp strike h1 h2 hroot hrootU hd1 hd2 hy1 hy2 hcp hs hsd
  have r1 := main s1 root 'A' d1 d2 y1 y2 cp strike h1 hroot hrootU (by decide)
    hd1 hd2 hy1 hy2 hcp hs hsd
  have r2 := main s2 root 'B' d1 d2 y1 y2 cp strike h2 hroot hrootU (by decide)
    hd1 hd2 hy1 hy2 hcp hs hsd
  exact ⟨_, _, r1, r2, by simp⟩

theorem parse_symbol_merrill_spec_witness :
    parse_symbol "TSLA#B3026C475000" =
      some ⟨"TSLA", 2027, 1, 30, "call", 475, "merrill"⟩ := by
  have h := parse_symbol_merrill_spec.1 "TSLA#B3026C475000"
    ['T', 'S', 'L', 'A'] 'B' '3' '0' '2' '6' 'C' ['4', '7', '5', '0', '0', '0']
    (by decide) (by decide) (by decide) (by decide) (by decide) (by decide)
    (by decide) (by decide) (by decide) (by decide) (by decide)
  rw [h]
  simp [twoDigitVal, digitVal, digitsVal, ParsedSymbol.mk.injEq]
  norm_num

/-- C3 counterexample to the claim as stated: on the repository's own test
input `TSLA#A3026C475000` (expected expiration `2026-01-30`) the expiration
month is 1 (January), which does not come from the fixed-width digit field
`3026`: 1 differs from every two-digit window (30, 02, 26) of that field. -/
theorem parse_symbol_merrill_month_counterexample :
    parse_symbol "TSLA#A3026C475000" =
      some ⟨"TSLA", 2026, 1, 30, "call", 475, "merrill"⟩ ∧
    (1 : ℕ) ≠ 30 ∧ (1 : ℕ) ≠ 2 ∧ (1 : ℕ) ≠ 26 := by
  refine ⟨?_, by decide, by decide, by decide⟩
  simp [parse_symbol, parseOccUpper, parseMerrillUpper, isUpperA, isDigitA,
    twoDigitVal, digitVal, digitsVal, ParsedSymbol.mk.injEq]
  norm_num

/-! ### RSI bounds -/

theorem gainSeries_nonneg (ps : List ℚ) : ∀ x ∈ gainSeries ps, 0 ≤ x := by
  intro x hx
  simp only [gainSeries, List.mem_cons, List.mem_map] at hx
  rcases hx with h | ⟨d, -, rfl⟩
  · simp [h]
  · simp only [gainPart]
    split <;> simp_all [le_of_lt]

theorem lossSeries_nonneg (ps : List ℚ) : ∀ x ∈ lossSeries ps, 0 ≤ x := by
  intro x hx
  simp only [lossSeries, List.mem_cons, List.mem_map] at hx
  rcases hx with h | ⟨d, -, rfl⟩
  · simp [h]
  · simp only [lossPart]
    split
    · simp_all
      linarith
    · simp

theorem rollingMeanAt_nonneg (xs : List ℚ) (period i : ℕ) (h : ∀ x ∈ xs, 0 ≤ x) :
    0 ≤ rollingMeanAt xs period i := by
  apply div_nonneg
  · apply List.sum_nonneg
    intro x hx
    exact h x (List.take_subset _ _ (List.drop_subset _ _ hx))
  · exact_mod_cast Nat.zero_le period

/-- C4: every defined entry of the 14-period RSI — the window is full
(`13 ≤ i`, `i < ps.length`) and the average loss is nonzero (ruling out the
NaN and the positive-gain/zero-loss divisions) — lies in `[0, 100]`:
`100 - 100/(1 + rs)` with `rs` the ratio of 14-period average gain to
14-period average loss. -/
theorem calculate_rsi_bounded (ps : List ℚ) (i : ℕ)
    (hwin : 13 ≤ i) (hlen : i < ps.length)
    (hloss : rollingMeanAt (lossSeries ps) 14 i ≠ 0) :
    0 ≤ calculate_rsi_at ps 14 i ∧ calculate_rsi_at ps 14 i ≤ 100 := by
  have hG : 0 ≤ rollingMeanAt (gainSeries ps) 14 i :=
    rollingMeanAt_nonneg _ 14 i (gainSeries_nonneg ps)
  have hL0 : 0 ≤ rollingMeanAt (lossSeries ps) 14 i :=
    rollingMeanAt_nonneg _ 14 i (lossSeries_nonneg ps)
  have hL : 0 < rollingMeanAt (lossSeries ps) 14 i := lt_of_le_of_ne hL0 (Ne.symm hloss)
  set G := rollingMeanAt (gainSeries ps) 14 i
  set L := rollingMeanAt (lossSeries ps) 14 i
  have hrs : 0 ≤ G / L := div_nonneg hG hL0
  have h1 : (1 : ℚ) ≤ 1 + G / L := by linarith
  have h0 : (0 : ℚ) < 1 + G / L := by linarith
  have hdivpos : 0 < 100 / (1 + G / L) := by positivity
  have hdivle : 100 / (1 + G / L) ≤ 100 := by
    calc 100 / (1 + G / L) ≤ 100 / 1 :=
          div_le_div_of_nonneg_left (by norm_num) (by norm_num) h1
      _ = 100 := by norm_num
  constructor
  · simp only [calculate_rsi_at]
    linarith
  · simp only [calculate_rsi_at]
    linarith

theorem calculate_rsi_bounded_witness :
    (13 : ℕ) ≤ 14 ∧ (14 : ℕ) < ([10, 11, 10, 11, 10, 11, 10, 11, 10, 11, 10, 11, 10, 11, 10] : List ℚ).length ∧
    rollingMeanAt (lossSeries [10, 11, 10, 11, 10, 11, 10, 11, 10, 11, 10, 11, 10, 11, 10]) 14 14 ≠ 0 ∧
    0 ≤ calculate_rsi_at [10, 11, 10, 11, 10, 11, 10, 11, 10, 11, 10, 11, 10, 11, 10] 14 14 ∧
    calculate_rsi_at [10, 11, 10, 11, 10, 11, 10, 11, 10, 11, 10, 11, 10, 11, 10] 14 14 ≤ 100 := by
  have hloss : rollingMeanAt
      (lossSeries [10, 11, 10, 11, 10, 11, 10, 11, 10, 11, 10, 11, 10, 11, 10]) 14 14 ≠ 0 := by
    norm_num [rollingMeanAt, lossSeries, deltasQ, lossPart]
  have h := calculate_rsi_bounded [10, 11, 10, 11, 10, 11, 10, 11, 10, 11, 10, 11, 10, 11, 10]
    14 (by norm_num) (by norm_num) hloss
  exact ⟨by norm_num, by norm_num, hloss, h.1, h.2⟩

/-! ### Nearest-strike premium lookup -/

theorem closestRow_foldl (k : ℚ) : ∀ (rows : List OptionRow) (b : OptionRow),
    ∃ r, rows.foldl (closerRow k) (some b) = some r ∧ (r = b ∨ r ∈ rows) ∧
      |r.strike - k| ≤ |b.strike - k| ∧ ∀ x ∈ rows, |r.strike - k| ≤ |x.strike - k| := by
  intro rows
  induction rows with
  | nil => exact fun b => ⟨b, rfl, Or.inl rfl, le_refl _, by simp⟩
  | cons a l ih =>
    intro b
    by_cases h : |a.strike - k| < |b.strike - k|
    · obtain ⟨r, heq, hmem, hle, hall⟩ := ih a
      refine ⟨r, ?_, ?_, ?_, ?_⟩
      · simpa [List.foldl_cons, closerRow, if_pos h] using heq
      · rcases hmem with rfl | hm
        · exact Or.inr (by simp)
        · exact Or.inr (by simp [hm])
      · exact le_trans hle (le_of_lt h)
      · intro x hx
        rcases List.mem_cons.mp hx with rfl | hm
        · exact hle
        · exact hall x hm
    · obtain ⟨r, heq, hmem, hle, hall⟩ := ih b
      refine ⟨r, ?_, ?_, hle, ?_⟩
      · simpa [List.foldl_cons, closerRow, if_neg h] using heq
      · rcases hmem with rfl | hm
        · exact Or.inl rfl
        · exact Or.inr (by simp [hm])
      · intro x hx
        rcases List.mem_cons.mp hx with rfl | hm
        · exact le_trans hle (not_lt.mp h)
        · exact hall x hm

/-- C6: on a nonempty table (calls when `is_call`, puts otherwise)
`estimate_premium` returns the `lastPrice` of a row whose strike minimizes
the absolute difference to the requested strike over all rows of the table;
on an empty table it returns 0. -/
theorem estimate_premium_spec (od : OptionChain) (k : ℚ) (is_call : Bool) :
    ((if is_call then od.calls else od.puts) = [] → estimate_premium od k is_call = 0) ∧
    ((if is_call then od.calls else od.puts) ≠ [] →
      ∃ r, r ∈ (if is_call then od.calls else od.puts) ∧
        estimate_premium od k is_call = r.lastPrice ∧
        ∀ x ∈ (if is_call then od.calls else od.puts),
          |r.strike - k| ≤ |x.strike - k|) := by
  constructor
  · intro h
    simp [estimate_premium, h, closestRow]
  · intro h
    cases hdf : (if is_call then od.calls else od.puts) with
    | nil => exact absurd hdf h
    | cons a l =>
      obtain ⟨r, heq, hmem, hle, hall⟩ := closestRow_foldl k l a
      have hclosest : closestRow (a :: l) k = some r := by
        simpa [closestRow, List.foldl_cons, closerRow] using heq
      refine ⟨r, ?_, ?_, ?_⟩
      · rcases hmem with rfl | hm
        · simp
        · simp [hm]
      · simp [estimate_premium, hdf, hclosest]
      · intro x hx
        rcases List.mem_cons.mp hx with rfl | hm
        · exact hle
        · exact hall x hm

theorem estimate_premium_spec_witness :
    ((if true then (OptionChain.mk [⟨450, 12⟩, ⟨455, 3⟩, ⟨460, 9⟩] []).calls
      else (OptionChain.mk [⟨450, 12⟩, ⟨455, 3⟩, ⟨460, 9⟩] []).puts) ≠ []) ∧
    ∃ r, r ∈ (if true then (OptionChain.mk [⟨450, 12⟩, ⟨455, 3⟩, ⟨460, 9⟩] []).calls
        else (OptionChain.mk [⟨450, 12⟩, ⟨455, 3⟩, ⟨460, 9⟩] []).puts) ∧
      estimate_premium (OptionChain.mk [⟨450, 12⟩, ⟨455, 3⟩, ⟨460, 9⟩] []) 456 true = r.lastPrice ∧
      ∀ x ∈ (if true then (OptionChain.mk [⟨450, 12⟩, ⟨455, 3⟩, ⟨460, 9⟩] []).calls
          else (OptionChain.mk [⟨450, 12⟩, ⟨455, 3⟩, ⟨460, 9⟩] []).puts),
        |r.strike - 456| ≤ |x.strike - 456| := by
  constructor
  · simp
  · exact (estimate_premium_spec (OptionChain.mk [⟨450, 12⟩, ⟨455, 3⟩, ⟨460, 9⟩] []) 456 true).2
      (by simp)

/-! ### Options filtering by expiration window -/

/-- C7: an entry `(ds, chain)` is in the filtered mapping exactly when it is
in the input mapping, its date string parses as `YYYY-MM-DD`, and the
weeks-to-expiration `(exp - today)/7` lies in `[min_w, max_w]` inclusive;
entries with unparsable dates are dropped, and retained entries keep their
original chain values. -/
theorem filter_options_by_weeks_spec {α : Type} (today : ℤ) (options : List (String × α))
    (min_w max_w : ℤ) (ds : String) (chain : α) :
    (ds, chain) ∈ filter_options_by_weeks today options min_w max_w ↔
      ((ds, chain) ∈ options ∧ ∃ ymd, parseDateStr ds = some ymd ∧
        (min_w : ℚ) ≤ weeksToExp today ymd ∧ weeksToExp today ymd ≤ (max_w : ℚ)) := by
  rw [filter_options_by_weeks, List.mem_filter]
  constructor
  · rintro ⟨hmem, hpred⟩
    refine ⟨hmem, ?_⟩
    cases h : parseDateStr ds with
    | none => rw [h] at hpred; simp at hpred
    | some ymd =>
      rw [h] at hpred
      exact ⟨ymd, rfl, decide_eq_true_iff.mp hpred⟩
  · rintro ⟨hmem, ymd, hparse, hlo, hhi⟩
    refine ⟨hmem, ?_⟩
    rw [hparse]
    exact decide_eq_true_iff.mpr ⟨hlo, hhi⟩

/-! ### Configuration loader -/

theorem lookupD_nil (k : String) : lookupD [] k = none := rfl

theorem lookupD_cons_self (a : String × CVal) (l : List (String × CVal)) (k : String)
    (h : a.1 = k) : lookupD (a :: l) k = some a.2 := by
  have hp : (fun kv : String × CVal => decide (kv.1 = k)) a = true := by simp [h]
  simp only [lookupD]
  rw [List.find?_cons_of_pos l hp]
  rfl

theorem lookupD_cons_ne (a : String × CVal) (l : List (String × CVal)) (k : String)
    (h : ¬ a.1 = k) : lookupD (a :: l) k = lookupD l k := by
  have hp : ¬ ((fun kv : String × CVal => decide (kv.1 = k)) a = true) := by simp [h]
  simp only [lookupD]
  rw [List.find?_cons_of_neg l hp]

theorem lookupD_eq_none_of_not_mem (d : List (String × CVal)) (k : String)
    (h : k ∉ d.map Prod.fst) : lookupD d k = none := by
  induction d with
  | nil => rfl
  | cons a rest ih =>
    simp only [List.map_cons, List.mem_cons] at h
    push_neg at h
    rw [lookupD_cons_ne a rest k (fun hc => h.1 hc.symm)]
    exact ih h.2

theorem lookupD_map_set_self (d : List (String × CVal)) (k : String) (v : CVal)
    (hany : (d.any fun kv => decide (kv.1 = k)) = true) :
    lookupD (d.map (fun kv => if kv.1 = k then (k, v) else kv)) k = some v := by
  induction d with
  | nil => simp at hany
  | cons a rest ih =>
    by_cases ha : a.1 = k
    · simp only [List.map_cons, if_pos ha]
      exact lookupD_cons_self (k, v) _ k rfl
    · simp only [List.any_cons] at hany
      rw [show (decide (a.1 = k)) = false from decide_eq_false ha] at hany
      simp only [Bool.false_or] at hany
      simp only [List.map_cons, if_neg ha]
      rw [lookupD_cons_ne a _ k ha]
      exact ih hany

theorem lookupD_append_single_self (d : List (String × CVal)) (k : String) (v : CVal) :
    (∀ kv ∈ d, ¬ kv.1 = k) → lookupD (d ++ [(k, v)]) k = some v := by
  induction d with
  | nil =>
    intro _
    exact lookupD_cons_self (k, v) [] k rfl
  | cons a rest ih =>
    intro h
    rw [List.cons_append, lookupD_cons_ne a _ k (h a (by simp))]
    exact ih (fun kv hkv => h kv (by simp [hkv]))

theorem lookupD_setKey_same (d : List (String × CVal)) (k : String) (v : CVal) :
    lookupD (setKey d k v) k = some v := by
  by_cases hany : (d.any fun kv => decide (kv.1 = k)) = true
  · simp only [setKey]
    rw [if_pos hany]
    exact lookupD_map_set_self d k v hany
  · simp only [setKey]
    rw [if_neg hany]
    apply lookupD_append_single_self
    intro kv hkv hc
    exact hany (List.any_eq_true.mpr ⟨kv, hkv, decide_eq_true hc⟩)

theorem lookupD_map_set_other (d : List (String × CVal)) (k k' : String) (v : CVal)
    (h : ¬ k' = k) :
    lookupD (d.map (fun kv => if kv.1 = k then (k, v) else kv)) k' = lookupD d k' := by
  induction d with
  | nil => rfl
  | cons a rest ih =>
    by_cases ha : a.1 = k
    · simp only [List.map_cons, if_pos ha]
      rw [lookupD_cons_ne (k, v) _ k' (fun hc => h hc.symm),
        lookupD_cons_ne a rest k' (fun hc => h (ha ▸ hc).symm)]
      exact ih
    · simp only [List.map_cons, if_neg ha]
      by_cases ha' : a.1 = k'
      · rw [lookupD_cons_self a _ k' ha', lookupD_cons_self a rest k' ha']
      · rw [lookupD_cons_ne a _ k' ha', lookupD_cons_ne a rest k' ha']
        exact ih

theorem lookupD_append_single_other (d : List (String × CVal)) (k k' : String) (v : CVal)
    (h : ¬ k' = k) : lookupD (d ++ [(k, v)]) k' = lookupD d k' := by
  induction d with
  | nil =>
    simp only [List.nil_append]
    rw [lookupD_cons_ne (k, v) [] k' (fun hc => h hc.symm)]
  | cons a rest ih =>
    by_cases ha : a.1 = k'
    · rw [List.cons_append, lookupD_cons_self a _ k' ha, lookupD_cons_self a rest k' ha]
    · rw [List.cons_append, lookupD_cons_ne a _ k' ha, lookupD_cons_ne a rest k' ha]
      exact ih

theorem lookupD_setKey_other (d : List (String × CVal)) (k k' : String) (v : CVal)
    (h : ¬ k' = k) : lookupD (setKey d k v) k' = lookupD d k' := by
  by_cases hany : (d.any fun kv => decide (kv.1 = k)) = true
  · simp only [setKey]
    rw [if_pos hany]
    exact lookupD_map_set_other d k k' v h
  · simp only [setKey]
    rw [if_neg hany]
    exact lookupD_append_single_other d k k' v h

theorem lookupD_dictUpdate (data : List (String × CVal)) :
    ∀ (base : List (String × CVal)), (data.map Prod.fst).Nodup →
      ∀ k, lookupD (dictUpdate base data) k = (lookupD data k).or (lookupD base k) := by
  induction data with
  | nil =>
    intro base _ k
    simp [dictUpdate, lookupD_nil]
  | cons a rest ih =>
    intro base hnd k
    simp only [List.map_cons, List.nodup_cons] at hnd
    obtain ⟨hnotin, hnd'⟩ := hnd
    have step : dictUpdate base (a :: rest) = dictUpdate (setKey base a.1 a.2) rest := rfl
    rw [step, ih (setKey base a.1 a.2) hnd' k]
    by_cases hk : a.1 = k
    · rw [show k = a.1 from hk.symm] at *
      rw [lookupD_eq_none_of_not_mem rest a.1 hnotin, lookupD_setKey_same,
        lookupD_cons_self a rest a.1 rfl]
      rfl
    · rw [lookupD_setKey_other base a.1 k a.2 (fun hc => hk hc.symm),
        lookupD_cons_ne a rest k hk]

/-- C5 (amended): with a parsed override object (keys distinct, as in a JSON
object), every key other than `EPS_PROJECTIONS` gets the override value when
present and the default value otherwise; the `EPS_PROJECTIONS` value —
override if present, default otherwise — additionally has its keys passed
through `int(key)` whenever it is a table; a missing, unparsable, or
non-object override file yields exactly the defaults. -/
theorem load_config_spec :
    (∀ data : List (String × CVal), (data.map Prod.fst).Nodup →
      (∀ k, k ≠ "EPS_PROJECTIONS" →
        lookupD (_load_config (ConfigSource.parsed data)) k =
          (lookupD data k).or (lookupD DEFAULT_CONFIG k)) ∧
      lookupD (_load_config (ConfigSource.parsed data)) "EPS_PROJECTIONS" =
        (match (lookupD data "EPS_PROJECTIONS").or (lookupD DEFAULT_CONFIG "EPS_PROJECTIONS") with
         | some (CVal.table es) => some (CVal.table (normalizeEntries es))
         | some v => some v
         | none => none)) ∧
    _load_config ConfigSource.missing = DEFAULT_CONFIG ∧
    _load_config ConfigSource.unparsable = DEFAULT_CONFIG ∧
    _load_config ConfigSource.nonObject = DEFAULT_CONFIG := by
  refine ⟨?_, rfl, rfl, rfl⟩
  intro data hnd
  have hm := lookupD_dictUpdate data DEFAULT_CONFIG hnd
  have hload : _load_config (ConfigSource.parsed data) =
      normalizeEps (dictUpdate DEFAULT_CONFIG data) := rfl
  constructor
  · intro k hk
    rw [hload, ← hm k]
    simp only [normalizeEps]
    cases heps : lookupD (dictUpdate DEFAULT_CONFIG data) "EPS_PROJECTIONS" with
    | none => rfl
    | some v =>
      cases v with
      | atom a => rfl
      | list xs => rfl
      | table es => exact lookupD_setKey_other _ "EPS_PROJECTIONS" k _ hk
  · rw [hload, ← hm "EPS_PROJECTIONS"]
    simp only [normalizeEps]
    cases heps : lookupD (dictUpdate DEFAULT_CONFIG data) "EPS_PROJECTIONS" with
    | none => exact heps
    | some v =>
      cases v with
      | atom a => exact heps
      | list xs => exact heps
      | table es => exact lookupD_setKey_same _ "EPS_PROJECTIONS" _

theorem load_config_spec_witness :
    lookupD (_load_config (ConfigSource.parsed
        [("CASH_AVAILABLE", CVal.atom (Atom.num 1000))])) "CASH_AVAILABLE" =
      some (CVal.atom (Atom.num 1000)) := by
  have h := ((load_config_spec.1 [("CASH_AVAILABLE", CVal.atom (Atom.num 1000))]
    (by simp)).1) "CASH_AVAILABLE" (by decide)
  rw [h]
  rw [lookupD_cons_self ("CASH_AVAILABLE", CVal.atom (Atom.num 1000)) [] "CASH_AVAILABLE" rfl]
  rfl

/-- C5 counterexample to the claim as stated: with the override object
`{"CASH_AVAILABLE": 100}` — in which `EPS_PROJECTIONS` is absent — the
loaded `EPS_PROJECTIONS` is the default table with its string keys converted
to integer keys, not the default value itself. -/
theorem load_config_eps_counterexample :
    lookupD (_load_config (ConfigSource.parsed
        [("CASH_AVAILABLE", CVal.atom (Atom.num 100))])) "EPS_PROJECTIONS" =
      some (CVal.table [ (CKey.ki 2025, Atom.num 1.64)
                       , (CKey.ki 2026, Atom.num 2.17)
                       , (CKey.ki 2030, Atom.num 11.24) ]) ∧
    lookupD DEFAULT_CONFIG "EPS_PROJECTIONS" =
      some (CVal.table [ (CKey.ks "2025", Atom.num 1.64)
                       , (CKey.ks "2026", Atom.num 2.17)
                       , (CKey.ks "2030", Atom.num 11.24) ]) ∧
    lookupD (_load_config (ConfigSource.parsed
        [("CASH_AVAILABLE", CVal.atom (Atom.num 100))])) "EPS_PROJECTIONS" ≠
      lookupD DEFAULT_CONFIG "EPS_PROJECTIONS" := by
  have h1 : lookupD (_load_config (ConfigSource.parsed
      [("CASH_AVAILABLE", CVal.atom (Atom.num 100))])) "EPS_PROJECTIONS" =
      some (CVal.table [ (CKey.ki 2025, Atom.num 1.64)
                       , (CKey.ki 2026, Atom.num 2.17)
                       , (CKey.ki 2030, Atom.num 11.24) ]) := rfl
  have h2 : lookupD DEFAULT_CONFIG "EPS_PROJECTIONS" =
      some (CVal.table [ (CKey.ks "2025", Atom.num 1.64)
                       , (CKey.ks "2026", Atom.num 2.17)
                       , (CKey.ks "2030", Atom.num 11.24) ]) := rfl
  refine ⟨h1, h2, ?_⟩
  rw [h1, h2]
  simp

/-! ### Atomicity of `add_position` -/

/-- C8: a `'buy'` whose cost `premium * qty * 100` exceeds the available
cash raises `ValueError` with the portfolio state untouched (the error
carries the entry state); a call that does not raise keeps the share count,
appends exactly one position record, and moves cash by the cost: down on
`'buy'`, up on `'sell'`. -/
theorem add_position_spec (p : Portfolio) (pos_type : String) (strike premium : ℚ)
    (qty : ℤ) (action : String) :
    (action = "buy" → premium * (qty : ℚ) * 100 > p.cash →
      add_position p pos_type strike premium qty action =
        Except.error ("Insufficient cash for position", p)) ∧
    (∀ p', add_position p pos_type strike premium qty action = Except.ok p' →
      p'.shares = p.shares ∧
      p'.positions = p.positions ++ [⟨pos_type, strike, premium, qty⟩] ∧
      (action = "buy" → p'.cash = p.cash - premium * (qty : ℚ) * 100) ∧
      (action = "sell" → p'.cash = p.cash + premium * (qty : ℚ) * 100)) := by
  constructor
  · intro h1 h2
    simp only [add_position]
    rw [if_pos ⟨h1, h2⟩]
  · intro p' h
    simp only [add_position] at h
    split at h
    · exact absurd h (by simp)
    · rename_i hneg
      have hp : p' = Portfolio.mk p.shares
          (if action = "buy" then p.cash - premium * (qty : ℚ) * 100
            else p.cash + premium * (qty : ℚ) * 100)
          (p.positions ++ [⟨pos_type, strike, premium, qty⟩]) := by
        cases h
        rfl
      subst hp
      refine ⟨rfl, rfl, ?_, ?_⟩
      · intro hb
        rw [if_pos hb]
      · intro hs
        rw [if_neg (by rw [hs]; decide)]

theorem add_position_spec_witness :
    add_position ⟨525, 5000, []⟩ "call" 455 10 1 "buy" =
      Except.ok ⟨525, 4000, [⟨"call", 455, 10, 1⟩]⟩ ∧
    (525 : ℤ) = 525 ∧ ([⟨"call", 455, 10, 1⟩] : List PositionRec) = [] ++ [⟨"call", 455, 10, 1⟩] ∧
    (4000 : ℚ) = 5000 - 10 * (1 : ℤ) * 100 := by
  have hok : add_position ⟨525, 5000, []⟩ "call" 455 10 1 "buy" =
      Except.ok ⟨525, 4000, [⟨"call", 455, 10, 1⟩]⟩ := by
    simp only [add_position]
    rw [if_neg (by rintro ⟨-, hc⟩; norm_num at hc)]
    norm_num
  have h := (add_position_spec ⟨525, 5000, []⟩ "call" 455 10 1 "buy").2
    ⟨525, 4000, [⟨"call", 455, 10, 1⟩]⟩ hok
  refine ⟨hok, h.1, h.2.1, ?_⟩
  exact h.2.2.1 rfl

/-! ### JSON store id uniqueness -/

theorem foldl_max_init (xs : List ℤ) : ∀ x : ℤ, x ≤ xs.foldl max x := by
  induction xs with
  | nil => intro x; exact le_refl x
  | cons a l ih =>
    intro x
    exact le_trans (le_max_left x a) (ih (max x a))

theorem foldl_max_mem (xs : List ℤ) : ∀ (x : ℤ), ∀ i ∈ xs, i ≤ xs.foldl max x := by
  induction xs with
  | nil => intro x i hi; simp at hi
  | cons a l ih =>
    intro x i hi
    rcases List.mem_cons.mp hi with rfl | hm
    · exact le_trans (le_max_right x i) (foldl_max_init l (max x i))
    · exact ih (max x a) i hm

theorem mem_lt_next_id (ids : List ℤ) : ∀ i ∈ ids, i < next_id ids := by
  intro i hi
  cases ids with
  | nil => simp at hi
  | cons x xs =>
    simp only [next_id]
    rcases List.mem_cons.mp hi with rfl | hm
    · exact lt_of_le_of_lt (foldl_max_init xs i) (by omega)
    · exact lt_of_le_of_lt (foldl_max_mem xs x i hm) (by omega)

theorem next_id_not_mem (ids : List ℤ) : next_id ids ∉ ids := by
  intro h
  exact absurd (mem_lt_next_id ids _ h) (lt_irrefl _)

theorem nodup_append_next_id (ids : List ℤ) (h : ids.Nodup) :
    (ids ++ [next_id ids]).Nodup := by
  simp [List.nodup_append, h, next_id_not_mem ids]

/-- The id-uniqueness invariant of the store. -/
def StoreIdsNodup (s : Store) : Prop :=
  s.portfolio_snapshots.Nodup ∧ s.transactions.Nodup ∧ s.options_positions.Nodup ∧
    (s.stock_positions.map Prod.snd).Nodup

theorem applyOp_preserves_nodup (s : Store) (op : DBOp) (h : StoreIdsNodup s) :
    StoreIdsNodup (applyOp s op) := by
  obtain ⟨h1, h2, h3, h4⟩ := h
  cases op with
  | snapshot =>
    exact ⟨nodup_append_next_id _ h1, h2, h3, h4⟩
  | transaction =>
    exact ⟨h1, nodup_append_next_id _ h2, h3, h4⟩
  | optionsPosition =>
    exact ⟨h1, h2, nodup_append_next_id _ h3, h4⟩
  | stockPosition symbol =>
    simp only [applyOp, update_stock_position]
    split
    · exact ⟨h1, h2, h3, h4⟩
    · refine ⟨h1, h2, h3, ?_⟩
      rw [List.map_append]
      exact nodup_append_next_id _ h4

theorem foldl_applyOp_preserves (ops : List DBOp) :
    ∀ s : Store, StoreIdsNodup s → StoreIdsNodup (ops.foldl applyOp s) := by
  induction ops with
  | nil => intro s h; exact h
  | cons op rest ih =>
    intro s h
    exact ih (applyOp s op) (applyOp_preserves_nodup s op h)

/-- C9: `_next_id` returns max-existing-id + 1, strictly greater than every
id already in the table; hence after any sequence of record-creating store
operations from the empty store, the ids within each table are pairwise
distinct. -/
theorem db_ids_unique :
    (∀ ids : List ℤ, ∀ i ∈ ids, i < next_id ids) ∧
    (∀ ops : List DBOp,
      (runOps ops).portfolio_snapshots.Nodup ∧
      (runOps ops).transactions.Nodup ∧
      (runOps ops).options_positions.Nodup ∧
      ((runOps ops).stock_positions.map Prod.snd).Nodup) := by
  constructor
  · exact mem_lt_next_id
  · intro ops
    exact foldl_applyOp_preserves ops emptyStore ⟨List.nodup_nil, List.nodup_nil,
      List.nodup_nil, List.nodup_nil⟩

theorem db_ids_unique_witness :
    (3 : ℤ) < next_id [3, 1, 2] ∧
    (runOps [DBOp.snapshot, DBOp.snapshot, DBOp.transaction,
      DBOp.stockPosition "TSLA", DBOp.stockPosition "TSLA"]).portfolio_snapshots.Nodup := by
  constructor
  · exact db_ids_unique.1 [3, 1, 2] 3 (by decide)
  · exact (db_ids_unique.2 [DBOp.snapshot, DBOp.snapshot, DBOp.transaction,
      DBOp.stockPosition "TSLA", DBOp.stockPosition "TSLA"]).1

/-! ### Covered-call recommendations -/

theorem pyRound_nonneg (q : ℚ) (h : 0 ≤ q) : 0 ≤ pyRound q := by
  have hf : (0 : ℤ) ≤ ⌊q⌋ := Int.floor_nonneg.mpr h
  simp only [pyRound]
  split
  · exact hf
  · split
    · omega
    · split
      · exact hf
      · omega

theorem round2_nonneg (q : ℚ) (h : 0 ≤ q) : 0 ≤ round2 q := by
  have : (0 : ℤ) ≤ pyRound (q * 100) := pyRound_nonneg _ (by positivity)
  simp only [round2]
  positivity

theorem one_le_fdiv_100 (shares : ℤ) (h : 100 ≤ shares) : 1 ≤ shares.fdiv 100 := by
  rw [Int.fdiv_eq_ediv shares (by norm_num)]
  rw [Int.le_ediv_iff_mul_le (by norm_num)]
  omega

/-- C10 (amended): with fewer than 100 shares the recommendation list is
empty; every recommendation returned has `qty = min(shares // 100, 10)`
(hence `1 ≤ qty ≤ 10`), and its premium field is the premium of the
closest-strike call — strictly positive before rounding — rounded to 2
decimal places, hence nonnegative (rounding can take a small positive
premium to exactly 0). -/
theorem generate_covered_call_spec (options_data : List (String × OptionChain))
    (shares : ℤ) (current_price : ℚ) :
    (shares < 100 → generate_covered_call_recommendations options_data shares current_price = []) ∧
    (∀ r ∈ generate_covered_call_recommendations options_data shares current_price,
      r.qty = min (shares.fdiv 100) 10 ∧ 1 ≤ r.qty ∧ r.qty ≤ 10 ∧
      ∃ p : ℚ, 0 < p ∧ r.premium = round2 p ∧ 0 ≤ r.premium) := by
  constructor
  · intro h
    simp only [generate_covered_call_recommendations]
    rw [if_neg (by omega)]
  · intro r hr
    simp only [generate_covered_call_recommendations] at hr
    by_cases hs : 100 ≤ shares
    · rw [if_pos hs] at hr
      obtain ⟨dateOpts, -, hfm⟩ := List.mem_flatMap.mp hr
      obtain ⟨otm_pct, -, heq⟩ := List.mem_filterMap.mp hfm
      split at heq
      · rename_i hpos
        cases heq
        refine ⟨rfl, ?_, ?_, ?_⟩
        · simp only
          exact le_min (one_le_fdiv_100 shares hs) (by norm_num)
        · simp only
          exact min_le_right _ _
        · refine ⟨estimate_premium dateOpts.2
            ((pyRound (current_price * (1 + otm_pct)) : ℤ) : ℚ) true, hpos, rfl, ?_⟩
          exact round2_nonneg _ (le_of_lt hpos)
      · exact absurd heq (by simp)
    · rw [if_neg hs] at hr
      simp at hr

theorem generate_covered_call_spec_witness :
    generate_covered_call_recommendations
      [("2026-02-27", OptionChain.mk [⟨455, 3⟩] [])] 50 400 = [] :=
  (generate_covered_call_spec [("2026-02-27", OptionChain.mk [⟨455, 3⟩] [])] 50 400).1
    (by norm_num)

/-- C10 counterexample to the claim as stated: with a chain whose closest
call trades at 0.004, the pre-rounding premium passes the `premium > 0`
check but the recommendation's premium field `round(0.004, 2)` is exactly 0,
which is not strictly positive. -/
theorem generate_covered_call_premium_counterexample :
    Recommendation.mk "Covered Calls" "Sell Covered Call" "2026-02-27" 420 0 5 2 ∈
      generate_covered_call_recommendations
        [("2026-02-27", OptionChain.mk [⟨420, 0.004⟩] [])] 525 400 ∧
    ¬ ((0 : ℚ) <
      (Recommendation.mk "Covered Calls" "Sell Covered Call" "2026-02-27" 420 0 5 2).premium) := by
  have h1 : (400 : ℚ) * (1 + 0.05) = 420 := by norm_num
  have hfloor420 : ⌊(420 : ℚ)⌋ = 420 := by norm_num
  have hstrike : pyRound ((400 : ℚ) * (1 + 0.05)) = 420 := by
    rw [h1]
    simp only [pyRound, hfloor420]
    norm_num
  have hprem : estimate_premium (OptionChain.mk [⟨420, 0.004⟩] []) ((420 : ℤ) : ℚ) true
      = 0.004 := rfl
  have hfdiv : (525 : ℤ).fdiv 100 = 5 := by decide
  have hqty : min ((525 : ℤ).fdiv 100) 10 = 5 := by rw [hfdiv]; decide
  have hround0 : round2 0.004 = 0 := by
    have hf : ⌊(0.004 : ℚ) * 100⌋ = 0 := by norm_num
    simp only [round2, pyRound, hf]
    norm_num
  have hround2 : round2 (((5 : ℤ) : ℚ) * 100 * 0.004) = 2 := by
    have h2 : ((5 : ℤ) : ℚ) * 100 * 0.004 = 2 := by norm_num
    have hf : ⌊(2 : ℚ) * 100⌋ = 200 := by norm_num
    rw [h2]
    simp only [round2, pyRound, hf]
    norm_num
  constructor
  · simp only [generate_covered_call_recommendations]
    rw [if_pos (by norm_num)]
    apply List.mem_flatMap.mpr
    refine ⟨("2026-02-27", OptionChain.mk [⟨420, 0.004⟩] []), by simp, ?_⟩
    apply List.mem_filterMap.mpr
    refine ⟨0.05, by norm_num, ?_⟩
    simp only [hstrike, hprem, hqty]
    rw [if_pos (by norm_num)]
    rw [hround0, hround2]
  · simp
